import Mathlib

/-!
Verification of the SendProp subsystem of a Source-engine demo parser
(`src/demo/sendprop.rs`) against its natural-language specification.

Modelling conventions:
* The little-endian bit reader (crate `bitbuffer`) is modelled as a
  `List Bool` of remaining bits; reading an `n`-bit unsigned integer takes
  the next `n` bits, first bit least significant, and fails (`none`) when
  fewer than `n` bits remain — matching the reader's `ReadError` on
  truncation.
* Machine integers are modelled as `Nat`/`Int` with explicit reductions
  `% 2^w`; `i32`/`u64` values use the helpers `toI32` / `% 2^64`.
* `f32` values are modelled as exact rationals (`ℚ`).  Every concrete
  float computation asserted by a theorem below involves only dyadic
  values on which the real `f32` operations are exact; places where the
  idealisation matters are called out in comments.
* Strings are byte lists (`List Nat`), each byte `< 256`.
-/

namespace SendProp

/-! ## Bit-stream primitives -/

/-- Value of a bit list, first element least significant (little-endian
bit order, as in the `bitbuffer` reader). -/
def bitsVal : List Bool → Nat
  | [] => 0
  | b :: bs => (if b then 1 else 0) + 2 * bitsVal bs

/-- Read `n` bits as an unsigned integer; `none` on truncation. -/
def readBits (n : Nat) (s : List Bool) : Option (Nat × List Bool) :=
  if n ≤ s.length then some (bitsVal (List.take n s), List.drop n s) else none

/-- Read a single bit as a boolean. -/
def readBool (s : List Bool) : Option (Bool × List Bool) :=
  match s with
  | [] => none
  | b :: s' => some (b, s')

/-- Encode `v` in `n` bits, least significant bit first (used to build
concrete input streams for the decoders). -/
def bitsLE : Nat → Nat → List Bool
  | 0, _ => []
  | n + 1, v => (v % 2 = 1) :: bitsLE n (v / 2)

theorem bitsLE_length (n v : Nat) : (bitsLE n v).length = n := by
  induction n generalizing v with
  | zero => rfl
  | succ n ih => simp [bitsLE, ih]

theorem bitsVal_bitsLE (n v : Nat) : bitsVal (bitsLE n v) = v % 2 ^ n := by
  induction n generalizing v with
  | zero => simp [bitsLE, bitsVal, Nat.mod_one]
  | succ n ih =>
    simp only [bitsLE, bitsVal, ih]
    have h2 : v % 2 ^ (n + 1) = v % 2 + 2 * (v / 2 % 2 ^ n) := by
      have hps : (2 : Nat) ^ (n + 1) = 2 * 2 ^ n := by ring
      rw [hps, Nat.mod_mul]
    by_cases hb : v % 2 = 1 <;> simp [hb] <;> omega

theorem readBits_bitsLE (n v : Nat) (hv : v < 2 ^ n) (rest : List Bool) :
    readBits n (bitsLE n v ++ rest) = some (v, rest) := by
  have hlen : (bitsLE n v).length = n := bitsLE_length n v
  simp [readBits, hlen, List.take_append_of_le_length, List.drop_append_of_le_length,
    bitsVal_bitsLE, Nat.mod_eq_of_lt hv, List.take_of_length_le, List.drop_of_length_le,
    hlen.le]

/-! ## Identifier hashing (`SendPropIdentifier::new`)

The source builds a `fnv::FnvHasher` (64-bit FNV-1a, offset basis
`0xcbf29ce484222325`, prime `0x100000001b3`) and feeds it `table` and
`prop` through Rust's `Hash for str`, which writes the string's bytes
followed by a single `0xff` terminator byte per `write_str`. -/

def fnvPrime : Nat := 0x100000001b3

def fnvOffsetBasis : Nat := 0xcbf29ce484222325

/-- One FNV-1a step: xor in the byte, then multiply by the prime, in
64-bit wrapping arithmetic. -/
def fnvStep (h b : Nat) : Nat := ((h ^^^ b) * fnvPrime) % 2 ^ 64

/-- `FnvHasher::write`: fold the bytes into the running state. -/
def fnvFold (h : Nat) (bs : List Nat) : Nat := bs.foldl fnvStep h

/-- Plain FNV-1a 64-bit hash of a byte sequence. -/
def fnv1a (bs : List Nat) : Nat := fnvFold fnvOffsetBasis bs

/-- Rust `Hash for str` against an `FnvHasher`: `write(bytes)` then
`write_u8(0xff)`. -/
def hashWriteStr (h : Nat) (s : List Nat) : Nat := fnvFold h (s ++ [0xff])

/-- `SendPropIdentifier::new(table, prop)`: default hasher state, hash
`table`, hash `prop`, return the final state. -/
def sendPropIdentifierNew (table prop : List Nat) : Nat :=
  hashWriteStr (hashWriteStr fnvOffsetBasis table) prop

/-- C1 counterexample: with `table = "a"` and `prop = "b"`,
`SendPropIdentifier::new` does not return the FNV-1a hash of the byte
concatenation `table ++ prop` — Rust's string hashing inserts a `0xff`
byte after each string. -/
theorem identifier_new_ne_fnv1a_concat :
    ¬ sendPropIdentifierNew [97] [98] = fnv1a ([97] ++ [98]) := by
  decide

/-- C1 (amended): `SendPropIdentifier::new(table, prop)` returns the
FNV-1a 64-bit hash (offset basis `0xcbf29ce484222325`, prime
`0x100000001b3`) of the byte sequence
`table ++ [0xff] ++ prop ++ [0xff]`: the bytes of the two strings in
order, each followed by the `0xff` delimiter that Rust's `str` hashing
appends; equivalently, the hash of that delimited concatenation. -/
theorem identifier_new_eq_fnv1a_delimited (table prop : List Nat) :
    sendPropIdentifierNew table prop =
      fnv1a (table ++ 0xff :: (prop ++ [0xff])) := by
  simp [sendPropIdentifierNew, hashWriteStr, fnv1a, fnvFold, List.foldl_append]

/-! ## Varint (`read_var_int`) -/

/-- Two's-complement `i32` view of an unsigned 32-bit value. -/
def toI32 (r : Nat) : Int :=
  if r % 2 ^ 32 < 2 ^ 31 then (r % 2 ^ 32 : Nat) else (r % 2 ^ 32 : Nat) - 2 ^ 32

/-- Loop body of `read_var_int`: for each shift `i` in the remaining
list, read one byte, OR `(byte & 0x7F) << i` (truncated to 32 bits, as
the `i32` shift discards higher bits) into the accumulator, and stop
when the byte's high bit is clear. -/
def readVarIntLoop : List Nat → Nat → List Bool → Option (Nat × List Bool)
  | [], acc, s => some (acc, s)
  | i :: is, acc, s =>
    (readBits 8 s).bind fun bs =>
      let acc' := acc ||| ((bs.1 &&& 0x7F) <<< i) % 2 ^ 32
      if bs.1 >>> 7 = 0 then some (acc', bs.2) else readVarIntLoop is acc' bs.2

/-- The zig-zag decode `(result >> 1) ^ -(result & 1)` performed by the
source on the `i32` result, expressed on the unsigned 32-bit view:
arithmetic right shift is division by two with the sign bit replicated,
and xoring with `-(result & 1)` (that is, with `0xFFFFFFFF` when the
result is odd) complements all 32 bits. -/
def zigzagU32 (r : Nat) : Nat :=
  (r / 2 + if 2 ^ 31 ≤ r then 2 ^ 31 else 0) ^^^ (if r % 2 = 1 then 2 ^ 32 - 1 else 0)

/-- `read_var_int(stream, signed)`: read up to five bytes, then apply
the zig-zag decode on the `i32` result when `signed`. -/
def readVarInt (signed : Bool) (s : List Bool) : Option (Int × List Bool) :=
  (readVarIntLoop [0, 7, 14, 21, 28] 0 s).map fun rs =>
    (if signed then toI32 (zigzagU32 rs.1) else toI32 rs.1, rs.2)

/-- Zig-zag decode as the specification states it, on the signed value:
`(v >>> 1) XOR -(v & 1)` with arithmetic-shift semantics, i.e. floor
division by two, complemented when `v` is odd. -/
def zigzagDecode (v : Int) : Int :=
  if v % 2 = 0 then Int.fdiv v 2 else -(Int.fdiv v 2) - 1

theorem xor_two_pow_sub_one (n : Nat) :
    ∀ x, x < 2 ^ n → x ^^^ (2 ^ n - 1) = 2 ^ n - 1 - x := by
  induction n with
  | zero =>
    intro x hx
    simp only [pow_zero, Nat.lt_one_iff] at hx
    simp [hx]
  | succ n ih =>
    intro x hx
    have hps : (2 : Nat) ^ (n + 1) = 2 * 2 ^ n := by ring
    have h1 : (1 : Nat) ≤ 2 ^ n := Nat.one_le_two_pow
    have hx2 : x / 2 < 2 ^ n := by omega
    have hhalf : (2 ^ (n + 1) - 1) / 2 = 2 ^ n - 1 := by omega
    have hd : (x ^^^ (2 ^ (n + 1) - 1)) / 2 = 2 ^ n - 1 - x / 2 := by
      rw [Nat.xor_div_two, hhalf, ih (x / 2) hx2]
    have hmm : (2 ^ (n + 1) - 1) % 2 = 1 := by omega
    have hm : (x ^^^ (2 ^ (n + 1) - 1)) % 2 = 1 ↔ ¬ (x % 2 = 1) := by
      rw [Nat.xor_mod_two_eq_one, hmm]
      tauto
    omega

theorem readVarIntLoop_lt (is : List Nat) (acc : Nat) (s : List Bool)
    (hacc : acc < 2 ^ 32) :
    ∀ r s', readVarIntLoop is acc s = some (r, s') → r < 2 ^ 32 := by
  induction is generalizing acc s with
  | nil =>
    intro r s' h
    simp only [readVarIntLoop, Option.some.injEq, Prod.mk.injEq] at h
    omega
  | cons i is ih =>
    intro r s' h
    simp only [readVarIntLoop] at h
    cases hb : readBits 8 s with
    | none => rw [hb] at h; simp at h
    | some bs =>
      rw [hb] at h
      simp only [Option.some_bind] at h
      have hacc' : acc ||| ((bs.1 &&& 0x7F) <<< i) % 2 ^ 32 < 2 ^ 32 :=
        Nat.or_lt_two_pow hacc (Nat.mod_lt _ (by norm_num))
      split at h
      · simp only [Option.some.injEq, Prod.mk.injEq] at h
        omega
      · exact ih _ _ hacc' r s' h

theorem readVarIntLoop_drop (is : List Nat) (acc : Nat) (s : List Bool) :
    ∀ r s', readVarIntLoop is acc s = some (r, s') →
      ∃ k, k ≤ is.length ∧ s' = List.drop (8 * k) s := by
  induction is generalizing acc s with
  | nil =>
    intro r s' h
    simp only [readVarIntLoop, Option.some.injEq, Prod.mk.injEq] at h
    exact ⟨0, by simp, by simp [h.2.symm]⟩
  | cons i is ih =>
    intro r s' h
    simp only [readVarIntLoop] at h
    cases hb : readBits 8 s with
    | none => rw [hb] at h; simp at h
    | some bs =>
      rw [hb] at h
      simp only [Option.some_bind] at h
      have hbs : bs.2 = List.drop 8 s := by
        simp only [readBits] at hb
        split at hb
        · simp only [Option.some.injEq] at hb
          rw [← hb]
        · simp at hb
      split at h
      · simp only [Option.some.injEq, Prod.mk.injEq] at h
        exact ⟨1, by simp, by rw [← h.2, hbs]⟩
      · obtain ⟨k, hk, hs⟩ := ih _ _ _ _ h
        refine ⟨k + 1, by simp; omega, ?_⟩
        rw [hs, hbs, List.drop_drop]
        congr 1
        ring

/-- The unsigned-view zig-zag performed by the source equals the
specification's arithmetic-shift zig-zag of the signed view, for every
32-bit value. -/
theorem zigzag_spec (r : Nat) (hr : r < 2 ^ 32) :
    toI32 (zigzagU32 r) = zigzagDecode (toI32 r) := by
  unfold zigzagU32 zigzagDecode toI32
  rw [Int.fdiv_eq_ediv _ (by norm_num)]
  by_cases hodd : r % 2 = 1
  · have hlt : (r / 2 + if 2 ^ 31 ≤ r then 2 ^ 31 else 0) < 2 ^ 32 := by
      split <;> omega
    rw [if_pos hodd, xor_two_pow_sub_one 32 _ hlt]
    split_ifs <;> omega
  · rw [if_neg hodd, Nat.xor_zero]
    split_ifs <;> omega


/-! ## Definition model -/

/-- `SendPropType`, 5-bit wire encoding `Int=0 .. NumSendPropTypes=7`. -/
inductive SendPropType where
  | int
  | float
  | vector
  | vectorXY
  | string
  | array
  | dataTable
  | numSendPropTypes
deriving DecidableEq, Repr

/-- Wire decoding of the 5-bit discriminant; values `8..31` have no
variant and make the derived `BitRead` fail. -/
def propTypeOfNat (v : Nat) : Option SendPropType :=
  match v with
  | 0 => some .int
  | 1 => some .float
  | 2 => some .vector
  | 3 => some .vectorXY
  | 4 => some .string
  | 5 => some .array
  | 6 => some .dataTable
  | 7 => some .numSendPropTypes
  | _ => none

/-- `SendPropType::read`: 5 bits, then discriminant lookup. -/
def readPropType (s : List Bool) : Option (SendPropType × List Bool) :=
  (readBits 5 s).bind fun vs => (propTypeOfNat vs.1).map fun t => (t, vs.2)

/-- Flag set, stored as the raw 16-bit mask.  All 16 bit positions carry
a recognized flag, so `BitFlags::from_bits_truncate` is the identity on
16-bit reads (the source notes this). -/
def SendPropFlags := Nat

/-- Flag bit positions, from the `SendPropFlag` mask values
(`Unsigned = 1 = bit 0`, …, `CoordMPIntegral = 32768 = bit 15`,
`NormalVarInt = 32 = bit 5`). -/
def unsignedBit : Nat := 0
def coordBit : Nat := 1
def noScaleBit : Nat := 2
def roundDownBit : Nat := 3
def roundUpBit : Nat := 4
def normalVarIntBit : Nat := 5
def excludeBit : Nat := 6
def xyzeBit : Nat := 7
def insideArrayBit : Nat := 8
def proxyAlwaysYesBit : Nat := 9
def changesOftenBit : Nat := 10
def isVectorElementBit : Nat := 11
def collapsibleBit : Nat := 12
def coordMPBit : Nat := 13
def coordMPLowPrecisionBit : Nat := 14
def coordMPIntegralBit : Nat := 15

/-- `SendPropFlags::contains`. -/
def flagsContain (flags : Nat) (bit : Nat) : Bool := flags.testBit bit

/-- `SendPropFlags::read`: 16 bits, truncation is the identity. -/
def readFlags (s : List Bool) : Option (Nat × List Bool) := readBits 16 s

/-- Null-terminated string read (`stream.read_string(None)`): bytes up
to and excluding the first zero byte.  The auxiliary function carries
fuel; since every step consumes eight bits, `s.length` steps always
suffice, so `readNullString` computes exactly the reader's result. -/
def readNullStringAux : Nat → List Bool → Option (List Nat × List Bool)
  | 0, _ => none
  | fuel + 1, s =>
    (readBits 8 s).bind fun bs =>
      if bs.1 = 0 then some ([], bs.2)
      else (readNullStringAux fuel bs.2).map fun rs => (bs.1 :: rs.1, rs.2)

def readNullString (s : List Bool) : Option (List Nat × List Bool) :=
  readNullStringAux (s.length + 1) s

/-- `RawSendPropDefinition`.  `f32` fields (`low_value`, `high_value`)
are carried as their raw 32-bit wire patterns, which is injective and
therefore faithful for the field-shape and equality claims below.
`element_count` is the 10-bit wire value, `bit_count` the 7-bit wire
value or a `NoScale` promotion. -/
inductive RawSendPropDefinition where
  | mk
    (prop_type : SendPropType)
    (name : List Nat)
    (owner_table : List Nat)
    (flags : Nat)
    (table_name : Option (List Nat))
    (low_value : Option Nat)
    (high_value : Option Nat)
    (bit_count : Option Nat)
    (element_count : Option Nat)
    (array_property : Option RawSendPropDefinition)

namespace RawSendPropDefinition

def prop_type : RawSendPropDefinition → SendPropType
  | mk t _ _ _ _ _ _ _ _ _ => t

def name : RawSendPropDefinition → List Nat
  | mk _ n _ _ _ _ _ _ _ _ => n

def owner_table : RawSendPropDefinition → List Nat
  | mk _ _ o _ _ _ _ _ _ _ => o

def flags : RawSendPropDefinition → Nat
  | mk _ _ _ f _ _ _ _ _ _ => f

def table_name : RawSendPropDefinition → Option (List Nat)
  | mk _ _ _ _ t _ _ _ _ _ => t

def low_value : RawSendPropDefinition → Option Nat
  | mk _ _ _ _ _ l _ _ _ _ => l

def high_value : RawSendPropDefinition → Option Nat
  | mk _ _ _ _ _ _ h _ _ _ => h

def bit_count : RawSendPropDefinition → Option Nat
  | mk _ _ _ _ _ _ _ b _ _ => b

def element_count : RawSendPropDefinition → Option Nat
  | mk _ _ _ _ _ _ _ _ e _ => e

def array_property : RawSendPropDefinition → Option RawSendPropDefinition
  | mk _ _ _ _ _ _ _ _ _ a => a

end RawSendPropDefinition

/-- `RawSendPropDefinition::identifier`. -/
def rawIdentifier (r : RawSendPropDefinition) : Nat :=
  sendPropIdentifierNew r.owner_table r.name

/-- `impl PartialEq for RawSendPropDefinition`: compares identifiers. -/
def rawEq (a b : RawSendPropDefinition) : Bool :=
  rawIdentifier a = rawIdentifier b

/-- `RawSendPropDefinition::with_array_property`. -/
def withArrayProperty (r inner : RawSendPropDefinition) : RawSendPropDefinition :=
  .mk r.prop_type r.name r.owner_table r.flags r.table_name r.low_value
    r.high_value r.bit_count r.element_count (some inner)

/-- `RawSendPropDefinition::read(stream, owner_table)`: 5-bit type,
null-terminated name, 16-bit flags, then one conditional tail, then the
`NoScale` bit-count promotion. -/
def rawRead (owner : List Nat) (s : List Bool) :
    Option (RawSendPropDefinition × List Bool) :=
  (readPropType s).bind fun ts =>
    (readNullString ts.2).bind fun ns =>
      (readFlags ns.2).bind fun fs =>
        let prop_type := ts.1
        let flags := fs.1
        let tail : Option ((Option (List Nat) × Option Nat × Option Nat ×
            Option Nat × Option Nat) × List Bool) :=
          if flagsContain flags excludeBit ∨ prop_type = .dataTable then
            (readNullString fs.2).map fun tn =>
              ((some tn.1, none, none, none, none), tn.2)
          else if prop_type = .array then
            (readBits 10 fs.2).map fun ec =>
              ((none, none, none, none, some ec.1), ec.2)
          else
            (readBits 32 fs.2).bind fun lo =>
              (readBits 32 lo.2).bind fun hi =>
                (readBits 7 hi.2).map fun bc =>
                  ((none, some lo.1, some hi.1, some bc.1, none), bc.2)
        tail.map fun ta =>
          let fields := ta.1
          let bit_count :=
            if flagsContain flags noScaleBit then
              if prop_type = .float then some 32
              else if prop_type = .vector ∧ ¬ flagsContain flags normalVarIntBit then
                some (32 * 3)
              else fields.2.2.2.1
            else fields.2.2.2.1
          (.mk prop_type ns.1 owner flags fields.1 fields.2.1 fields.2.2.1
            bit_count fields.2.2.2.2 none, ta.2)

/-- C10: `with_array_property` sets `array_property` to the given inner
definition and copies every other field of the receiver unchanged. -/
theorem with_array_property_frame (r inner : RawSendPropDefinition) :
    (withArrayProperty r inner).array_property = some inner ∧
    (withArrayProperty r inner).prop_type = r.prop_type ∧
    (withArrayProperty r inner).name = r.name ∧
    (withArrayProperty r inner).owner_table = r.owner_table ∧
    (withArrayProperty r inner).flags = r.flags ∧
    (withArrayProperty r inner).table_name = r.table_name ∧
    (withArrayProperty r inner).low_value = r.low_value ∧
    (withArrayProperty r inner).high_value = r.high_value ∧
    (withArrayProperty r inner).bit_count = r.bit_count ∧
    (withArrayProperty r inner).element_count = r.element_count := by
  cases r
  simp [withArrayProperty, RawSendPropDefinition.prop_type,
    RawSendPropDefinition.name, RawSendPropDefinition.owner_table,
    RawSendPropDefinition.flags, RawSendPropDefinition.table_name,
    RawSendPropDefinition.low_value, RawSendPropDefinition.high_value,
    RawSendPropDefinition.bit_count, RawSendPropDefinition.element_count,
    RawSendPropDefinition.array_property]

/-- C9: equality of raw definitions is decided by the identifier hash
alone, so two definitions with the same `owner_table` and `name` compare
equal whatever their other fields are. -/
theorem rawEq_of_owner_name (a b : RawSendPropDefinition)
    (howner : a.owner_table = b.owner_table) (hname : a.name = b.name) :
    rawEq a b = true := by
  simp [rawEq, rawIdentifier, howner, hname]

/-- C9 witness: two concrete raw definitions sharing only table and
name — every other field differs — still compare equal. -/
theorem rawEq_of_owner_name_witness :
    (RawSendPropDefinition.mk .int [104] [116] 0 none none none none none
        none).prop_type ≠
      (RawSendPropDefinition.mk .float [104] [116] 1024 (some [99])
          (some 5) (some 6) (some 7) (some 8) none).prop_type ∧
    rawEq
      (.mk .int [104] [116] 0 none none none none none none)
      (.mk .float [104] [116] 1024 (some [99]) (some 5) (some 6) (some 7)
        (some 8) none) = true :=
  ⟨by decide,
   rawEq_of_owner_name
     (.mk .int [104] [116] 0 none none none none none none)
     (.mk .float [104] [116] 1024 (some [99]) (some 5) (some 6) (some 7)
       (some 8) none) rfl rfl⟩

/-- C5: after the 5-bit type, name and 16-bit flags,
`RawSendPropDefinition::read` fills exactly one conditional tail chosen
by first match (table name on `Exclude`/`DataTable`, a 10-bit element
count on `Array`, otherwise low/high/7-bit bit count), then applies the
`NoScale` promotion to `bit_count` (32 for `Float`, 96 for `Vector`
without `NormalVarInt`); every other optional field stays `None`. -/
theorem rawRead_field_shape (owner : List Nat) (s : List Bool)
    (r : RawSendPropDefinition) (s' : List Bool)
    (h : rawRead owner s = some (r, s')) :
    r.owner_table = owner ∧ r.array_property = none ∧
    ((flagsContain r.flags excludeBit = true ∨ r.prop_type = .dataTable) →
      r.table_name.isSome = true ∧ r.element_count = none ∧
      r.low_value = none ∧ r.high_value = none ∧
      r.bit_count =
        (if flagsContain r.flags noScaleBit = true ∧ r.prop_type = .float
          then some 32
         else if flagsContain r.flags noScaleBit = true ∧
             r.prop_type = .vector ∧
             ¬ flagsContain r.flags normalVarIntBit = true then some 96
         else none)) ∧
    (¬ (flagsContain r.flags excludeBit = true ∨ r.prop_type = .dataTable) →
      r.prop_type = .array →
      r.table_name = none ∧ r.element_count.isSome = true ∧
      r.low_value = none ∧ r.high_value = none ∧ r.bit_count = none) ∧
    (¬ (flagsContain r.flags excludeBit = true ∨ r.prop_type = .dataTable) →
      r.prop_type ≠ .array →
      r.table_name = none ∧ r.element_count = none ∧
      r.low_value.isSome = true ∧ r.high_value.isSome = true ∧
      r.bit_count.isSome = true ∧
      ((flagsContain r.flags noScaleBit = true ∧ r.prop_type = .float) →
        r.bit_count = some 32) ∧
      ((flagsContain r.flags noScaleBit = true ∧ r.prop_type = .vector ∧
          ¬ flagsContain r.flags normalVarIntBit = true) →
        r.bit_count = some 96)) := by
  simp only [rawRead] at h
  cases h1 : readPropType s with
  | none => rw [h1] at h; simp at h
  | some ts =>
    rw [h1] at h
    simp only [Option.some_bind] at h
    cases h2 : readNullString ts.2 with
    | none => rw [h2] at h; simp at h
    | some ns =>
      rw [h2] at h
      simp only [Option.some_bind] at h
      cases h3 : readFlags ns.2 with
      | none => rw [h3] at h; simp at h
      | some fs =>
        rw [h3] at h
        simp only [Option.some_bind] at h
        by_cases hc1 : flagsContain fs.1 excludeBit = true ∨
            ts.1 = SendPropType.dataTable
        · rw [if_pos hc1] at h
          cases h4 : readNullString fs.2 with
          | none => rw [h4] at h; simp at h
          | some tn =>
            rw [h4] at h
            simp only [Option.map_some', Option.some.injEq, Prod.mk.injEq] at h
            obtain ⟨hr, _⟩ := h
            subst hr
            simp only [RawSendPropDefinition.owner_table,
              RawSendPropDefinition.array_property,
              RawSendPropDefinition.flags, RawSendPropDefinition.prop_type,
              RawSendPropDefinition.table_name,
              RawSendPropDefinition.low_value,
              RawSendPropDefinition.high_value,
              RawSendPropDefinition.bit_count,
              RawSendPropDefinition.element_count]
            refine ⟨by trivial, by trivial, fun _ => ⟨by trivial, by trivial, by trivial, by trivial, ?_⟩,
              fun hn => absurd hc1 hn, fun hn => absurd hc1 hn⟩
            split_ifs <;> first | rfl | tauto
        · rw [if_neg hc1] at h
          by_cases hc2 : ts.1 = SendPropType.array
          · rw [if_pos hc2] at h
            cases h4 : readBits 10 fs.2 with
            | none => rw [h4] at h; simp at h
            | some ec =>
              rw [h4] at h
              simp only [Option.map_some', Option.some.injEq,
                Prod.mk.injEq] at h
              obtain ⟨hr, _⟩ := h
              subst hr
              simp only [RawSendPropDefinition.owner_table,
                RawSendPropDefinition.array_property,
                RawSendPropDefinition.flags,
                RawSendPropDefinition.prop_type,
                RawSendPropDefinition.table_name,
                RawSendPropDefinition.low_value,
                RawSendPropDefinition.high_value,
                RawSendPropDefinition.bit_count,
                RawSendPropDefinition.element_count]
              refine ⟨by trivial, by trivial, fun hc => absurd hc hc1,
                fun _ _ => ⟨by trivial, by trivial, by trivial, by trivial, ?_⟩,
                fun _ hne => absurd hc2 hne⟩
              rw [hc2]
              split_ifs <;> simp_all
          · rw [if_neg hc2] at h
            cases h4 : readBits 32 fs.2 with
            | none => rw [h4] at h; simp at h
            | some lo =>
              rw [h4] at h
              simp only [Option.some_bind] at h
              cases h5 : readBits 32 lo.2 with
              | none => rw [h5] at h; simp at h
              | some hi =>
                rw [h5] at h
                simp only [Option.some_bind] at h
                cases h6 : readBits 7 hi.2 with
                | none => rw [h6] at h; simp at h
                | some bc =>
                  rw [h6] at h
                  simp only [Option.map_some', Option.some.injEq,
                    Prod.mk.injEq] at h
                  obtain ⟨hr, _⟩ := h
                  subst hr
                  simp only [RawSendPropDefinition.owner_table,
                    RawSendPropDefinition.array_property,
                    RawSendPropDefinition.flags,
                    RawSendPropDefinition.prop_type,
                    RawSendPropDefinition.table_name,
                    RawSendPropDefinition.low_value,
                    RawSendPropDefinition.high_value,
                    RawSendPropDefinition.bit_count,
                    RawSendPropDefinition.element_count]
                  refine ⟨by trivial, by trivial, fun hc => absurd hc hc1,
                    fun _ ha => absurd ha hc2,
                    fun _ _ => ⟨by trivial, by trivial, by trivial, by trivial, ?_, ?_, ?_⟩⟩
                  · split_ifs <;> simp
                  · rintro ⟨hns, hfl⟩
                    rw [if_pos hns, if_pos hfl]
                  · rintro ⟨hns, hv, hnvi⟩
                    rw [if_pos hns, hv]
                    have : ¬ (SendPropType.vector = SendPropType.float) := by
                      decide
                    rw [if_neg this, if_pos ⟨rfl, hnvi⟩]

/-- C5 witness: a concrete `Int` property record (`"a"` in table `"t"`,
no flags, low/high/7-bit bit count tail) read from an explicit stream,
with the third tail shape obtained from the theorem. -/
theorem rawRead_field_shape_witness :
    (RawSendPropDefinition.mk SendPropType.int [97] [116] 0 none (some 0)
        (some 0) (some 7) none none).table_name = none ∧
    (RawSendPropDefinition.mk SendPropType.int [97] [116] 0 none (some 0)
        (some 0) (some 7) none none).element_count = none ∧
    (RawSendPropDefinition.mk SendPropType.int [97] [116] 0 none (some 0)
        (some 0) (some 7) none none).low_value.isSome = true ∧
    (RawSendPropDefinition.mk SendPropType.int [97] [116] 0 none (some 0)
        (some 0) (some 7) none none).high_value.isSome = true ∧
    (RawSendPropDefinition.mk SendPropType.int [97] [116] 0 none (some 0)
        (some 0) (some 7) none none).bit_count.isSome = true ∧
    ((flagsContain
        (RawSendPropDefinition.mk SendPropType.int [97] [116] 0 none
          (some 0) (some 0) (some 7) none none).flags noScaleBit = true ∧
      (RawSendPropDefinition.mk SendPropType.int [97] [116] 0 none (some 0)
          (some 0) (some 7) none none).prop_type = .float) →
      (RawSendPropDefinition.mk SendPropType.int [97] [116] 0 none (some 0)
          (some 0) (some 7) none none).bit_count = some 32) ∧
    ((flagsContain
        (RawSendPropDefinition.mk SendPropType.int [97] [116] 0 none
          (some 0) (some 0) (some 7) none none).flags noScaleBit = true ∧
      (RawSendPropDefinition.mk SendPropType.int [97] [116] 0 none (some 0)
          (some 0) (some 7) none none).prop_type = .vector ∧
      ¬ flagsContain
          (RawSendPropDefinition.mk SendPropType.int [97] [116] 0 none
            (some 0) (some 0) (some 7) none none).flags
          normalVarIntBit = true) →
      (RawSendPropDefinition.mk SendPropType.int [97] [116] 0 none (some 0)
          (some 0) (some 7) none none).bit_count = some 96) :=
  (rawRead_field_shape [116]
      (bitsLE 5 0 ++ bitsLE 8 97 ++ bitsLE 8 0 ++ bitsLE 16 0 ++
        bitsLE 32 0 ++ bitsLE 32 0 ++ bitsLE 7 7)
      (.mk .int [97] [116] 0 none (some 0) (some 0) (some 7) none none) []
      (by rfl)).2.2.2.2 (by decide) (by decide)

/-! ## Float definitions (`FloatDefinition::new`) -/

/-- Refinement-time error type.  Modelled from the spec: the enum lives
in the crate's `parser` module, outside the provided source; §7 names
the four variants. -/
inductive MalformedSendPropDefinitionError where
  | unsizedFloat
  | unsizedArray
  | untypedArray
  | invalidPropType
deriving DecidableEq, Repr

/-- `FloatDefinition`; `Scaled.bit_count` carries the `u8` value (the
source casts the `u32` field with `as u8`, i.e. mod 256), and the float
bounds are exact rationals. -/
inductive FloatDefinition where
  | coord
  | coordMP
  | coordMPLowPrecision
  | coordMPIntegral
  | floatNoScale
  | normalVarFloat
  | scaled (bit_count : Nat) (high low : ℚ)
deriving DecidableEq

/-- `FloatDefinition::new(flags, bit_count, high, low)`: first-match on
the flag-driven variants, then `Scaled` when all three numeric fields
are present, else `UnsizedFloat`. -/
def floatDefinitionNew (flags : Nat) (bit_count : Option Nat)
    (high low : Option ℚ) :
    Except MalformedSendPropDefinitionError FloatDefinition :=
  if flagsContain flags coordBit then .ok .coord
  else if flagsContain flags coordMPBit then .ok .coordMP
  else if flagsContain flags coordMPLowPrecisionBit then .ok .coordMPLowPrecision
  else if flagsContain flags coordMPIntegralBit then .ok .coordMPIntegral
  else if flagsContain flags noScaleBit then .ok .floatNoScale
  else if flagsContain flags normalVarIntBit then .ok .normalVarFloat
  else
    match bit_count, high, low with
    | some bc, some h, some l => .ok (.scaled (bc % 256) h l)
    | _, _, _ => .error .unsizedFloat

/-- Any of the six selecting flags set? (`Coord`, `CoordMP`,
`CoordMPLowPrecision`, `CoordMPIntegral`, `NoScale`, `NormalVarInt`.) -/
def anySelectingFlag (flags : Nat) : Bool :=
  flagsContain flags coordBit || flagsContain flags coordMPBit ||
  flagsContain flags coordMPLowPrecisionBit ||
  flagsContain flags coordMPIntegralBit || flagsContain flags noScaleBit ||
  flagsContain flags normalVarIntBit

/-- C6: `FloatDefinition::new` selects by first-match precedence
`Coord, CoordMP, CoordMPLowPrecision, CoordMPIntegral, NoScale
(FloatNoScale), NormalVarInt (NormalVarFloat), Scaled`; it succeeds
whenever one of the six flags is set or all three numeric fields are
present, and fails — necessarily with `UnsizedFloat` — exactly when no
selecting flag is set and some numeric field is `None`. -/
theorem floatDefinitionNew_cases (flags : Nat) (bc : Option Nat)
    (hi lo : Option ℚ) :
    (floatDefinitionNew flags bc hi lo = .error .unsizedFloat ↔
      anySelectingFlag flags = false ∧ (bc = none ∨ hi = none ∨ lo = none)) ∧
    ((floatDefinitionNew flags bc hi lo).isOk = true ↔
      (anySelectingFlag flags = true ∨
        (bc ≠ none ∧ hi ≠ none ∧ lo ≠ none))) ∧
    (floatDefinitionNew flags bc hi lo = .ok .coord ↔
      flagsContain flags coordBit = true) ∧
    (floatDefinitionNew flags bc hi lo = .ok .coordMP ↔
      flagsContain flags coordBit = false ∧
      flagsContain flags coordMPBit = true) ∧
    (floatDefinitionNew flags bc hi lo = .ok .coordMPLowPrecision ↔
      flagsContain flags coordBit = false ∧
      flagsContain flags coordMPBit = false ∧
      flagsContain flags coordMPLowPrecisionBit = true) ∧
    (floatDefinitionNew flags bc hi lo = .ok .coordMPIntegral ↔
      flagsContain flags coordBit = false ∧
      flagsContain flags coordMPBit = false ∧
      flagsContain flags coordMPLowPrecisionBit = false ∧
      flagsContain flags coordMPIntegralBit = true) ∧
    (floatDefinitionNew flags bc hi lo = .ok .floatNoScale ↔
      flagsContain flags coordBit = false ∧
      flagsContain flags coordMPBit = false ∧
      flagsContain flags coordMPLowPrecisionBit = false ∧
      flagsContain flags coordMPIntegralBit = false ∧
      flagsContain flags noScaleBit = true) ∧
    (floatDefinitionNew flags bc hi lo = .ok .normalVarFloat ↔
      flagsContain flags coordBit = false ∧
      flagsContain flags coordMPBit = false ∧
      flagsContain flags coordMPLowPrecisionBit = false ∧
      flagsContain flags coordMPIntegralBit = false ∧
      flagsContain flags noScaleBit = false ∧
      flagsContain flags normalVarIntBit = true) ∧
    (∀ b h l, floatDefinitionNew flags bc hi lo = .ok (.scaled b h l) ↔
      anySelectingFlag flags = false ∧
      (∃ n, bc = some n ∧ b = n % 256) ∧ hi = some h ∧ lo = some l) := by
  unfold floatDefinitionNew anySelectingFlag
  split_ifs with h1 h2 h3 h4 h5 h6
  · simp [h1, Except.isOk, Except.toBool]
  · simp [h1, h2, Except.isOk, Except.toBool]
  · simp [h1, h2, h3, Except.isOk, Except.toBool]
  · simp [h1, h2, h3, h4, Except.isOk, Except.toBool]
  · simp [h1, h2, h3, h4, h5, Except.isOk, Except.toBool]
  · simp [h1, h2, h3, h4, h5, h6, Except.isOk, Except.toBool]
  · cases bc <;> cases hi <;> cases lo <;>
      simp [h1, h2, h3, h4, h5, h6, Except.isOk, Except.toBool, eq_comm]

/-! ## Float codecs -/

/-- `get_frac_factor(bits) = 1.0 / (1 << bits)`, exact in `f32` for the
bit widths used (3, 5, 11). -/
def getFracFactor (bits : Nat) : ℚ := 1 / 2 ^ bits

/-- `read_bit_coord`: `has_int`, `has_frac`, then (if either) sign, a
14-bit integer part incremented by one, and a 5-bit fraction over 32. -/
def readBitCoord (s : List Bool) : Option (ℚ × List Bool) :=
  (readBool s).bind fun hi =>
    (readBool hi.2).bind fun hf =>
      if hi.1 || hf.1 then
        (readBool hf.2).bind fun sg =>
          let sign : ℚ := if sg.1 then -1 else 1
          ((if hi.1 then (readBits 14 sg.2).map fun iv => (iv.1 + 1, iv.2)
           else some (0, sg.2) : Option (Nat × List Bool))).bind fun iv =>
            ((if hf.1 then readBits 5 iv.2
              else some (0, iv.2) : Option (Nat × List Bool))).map fun fv =>
              (((iv.1 : ℚ) + (fv.1 : ℚ) * getFracFactor 5) * sign, fv.2)
      else some (0, hf.2)

/-- `read_bit_coord_mp(stream, is_integral, low_precision)`. -/
def readBitCoordMP (isIntegral lowPrecision : Bool) (s : List Bool) :
    Option (ℚ × List Bool) :=
  (readBool s).bind fun inb =>
    (readBool inb.2).bind fun hasInt =>
      if isIntegral then
        if hasInt.1 then
          (readBool hasInt.2).bind fun neg =>
            (readBits (if inb.1 then 11 else 14) neg.2).map fun iv =>
              (if neg.1 then -(((iv.1 + 1 : Nat) : ℚ)) else ((iv.1 + 1 : Nat) : ℚ),
                iv.2)
        else some (0, hasInt.2)
      else
        (readBool hasInt.2).bind fun neg =>
          (if hasInt.1 then
              (readBits (if inb.1 then 11 else 14) neg.2).map fun iv =>
                ((iv.1 + 1 : Nat), iv.2)
            else some ((0 : Nat), neg.2)).bind fun iv =>
            (readBits (if lowPrecision then 3 else 5) iv.2).map fun fv =>
              (let v : ℚ := (iv.1 : ℚ) +
                (fv.1 : ℚ) * getFracFactor (if lowPrecision then 3 else 5)
               ((if neg.1 then -v else v), fv.2))

/-- `read_bit_normal`: sign bit then an 11-bit fraction over 2048. -/
def readBitNormal (s : List Bool) : Option (ℚ × List Bool) :=
  (readBool s).bind fun neg =>
    (readBits 11 neg.2).map fun fv =>
      (let v : ℚ := (fv.1 : ℚ) * getFracFactor 11
       ((if neg.1 then -v else v), fv.2))

/-- Value of an IEEE-754 binary32 bit pattern as an exact rational.
Exponent 255 (infinities, NaNs) has no rational value and is mapped to
0; no theorem below depends on that case. -/
def decodeF32 (p : Nat) : ℚ :=
  let sign : ℚ := if p.testBit 31 then -1 else 1
  let ex : Nat := p / 2 ^ 23 % 2 ^ 8
  let m : Nat := p % 2 ^ 23
  if ex = 255 then 0
  else if ex = 0 then sign * (m : ℚ) / 2 ^ 149
  else sign * ((2 ^ 23 + m : Nat) : ℚ) * (2 : ℚ) ^ ex / 2 ^ 150

/-- Denominator computed by the `Scaled` decoder:
`(1i32.wrapping_shl(bit_count)) as f32 - 1.0`.  `wrapping_shl` reduces
the shift amount mod 32 and the result is reinterpreted as a signed
`i32` (so `b = 31` yields `-2^31`).  The trailing `- 1.0` is exact in
the model; in real `f32` it is absorbed by rounding for `b ≥ 25`, but
the specification's own formula `2^b - 1` rounds identically there, so
the agreement and disagreement results below are unaffected. -/
def scaledDenom (b : Nat) : ℚ := (toI32 ((1 <<< (b % 32)) % 2 ^ 32) : ℚ) - 1

/-- `SendPropValue::read_float`.  For `Scaled`, reading more than 32
bits into a `u32` is a reader error (`none`). -/
def readFloat : FloatDefinition → List Bool → Option (ℚ × List Bool)
  | .coord, s => readBitCoord s
  | .coordMP, s => readBitCoordMP false false s
  | .coordMPLowPrecision, s => readBitCoordMP false true s
  | .coordMPIntegral, s => readBitCoordMP true false s
  | .floatNoScale, s => (readBits 32 s).map fun ps => (decodeF32 ps.1, ps.2)
  | .normalVarFloat, s => readBitNormal s
  | .scaled b high low, s =>
      if b ≤ 32 then
        (readBits b s).map fun rs =>
          (low + (high - low) * ((rs.1 : ℚ) / scaledDenom b), rs.2)
      else none

/-- C8: `read_bit_coord` returns `0.0` after two clear bits, and
otherwise reads sign, optional 14-bit integer part plus one, optional
5-bit fraction over 32, with the sign applied to the sum. -/
theorem read_bit_coord_spec :
    (∀ rest : List Bool, readBitCoord (false :: false :: rest) = some (0, rest)) ∧
    (∀ (hi hf sg : Bool) (i f : Nat) (rest : List Bool),
      (hi || hf) = true → i < 2 ^ 14 → f < 2 ^ 5 →
      readBitCoord ([hi, hf, sg] ++ (if hi then bitsLE 14 i else []) ++
          (if hf then bitsLE 5 f else []) ++ rest) =
        some ((if sg then -1 else 1) *
          ((if hi then (i : ℚ) + 1 else 0) + (if hf then (f : ℚ) else 0) / 32),
          rest)) := by
  constructor
  · intro rest
    simp [readBitCoord, readBool]
  · intro hi hf sg i f rest hor hi14 hf5
    have h14 := readBits_bitsLE 14 i hi14
    have h5 := readBits_bitsLE 5 f hf5
    cases hi <;> cases hf
    · simp at hor
    all_goals
      cases sg <;>
        (simp only [readBitCoord, readBool, List.cons_append, List.nil_append,
          List.append_assoc, List.append_nil, Bool.false_or, Bool.true_or,
          Bool.or_true, reduceIte, Bool.false_eq_true, Bool.true_eq_false,
          ite_true, ite_false, Option.some_bind, h14, h5, Option.map_some',
          getFracFactor, Option.some.injEq, Prod.mk.injEq, and_true]
         push_cast
         ring)

/-- C8 witness: bits `0, 1, 0, 01000` (no integer part, fraction 8,
positive) decode to `0.25`. -/
theorem read_bit_coord_spec_witness :
    readBitCoord [false, true, false, false, false, false, true, false] =
      some (1 / 4, []) := by
  have h := read_bit_coord_spec.2 false true false 0 8 [] rfl (by norm_num)
    (by norm_num)
  norm_num [bitsLE] at h
  convert h using 2

/-- C3 counterexample: with `bit_count = 31`, `low = 0`, `high = 1` and
raw value 1, the decoder divides by the `wrapping_shl` denominator
`(1i32 << 31) - 1 = -2^31 - 1` (the shift wraps into the sign bit), so
the result is negative, while the claimed formula
`low + (high-low) * (raw / (2^31 - 1))` is positive.  (The sign of both
sides survives `f32` rounding, so the divergence is not an artifact of
the exact-rational model.) -/
theorem scaled_float_counterexample :
    readFloat (.scaled 31 1 0) (bitsLE 31 1) =
      some (-(1 / 2147483649 : ℚ), []) ∧
    ((0 : ℚ) + (1 - 0) * ((1 : ℚ) / (2 ^ 31 - 1)) ≠ -(1 / 2147483649 : ℚ)) := by
  constructor
  · have hr : readBits 31 (bitsLE 31 1 ++ ([] : List Bool)) =
        some (1, []) := readBits_bitsLE 31 1 (by norm_num) []
    rw [List.append_nil] at hr
    simp only [readFloat, reduceIte, hr, Option.map_some']
    norm_num [scaledDenom, toI32, Nat.shiftLeft_eq]
  · norm_num

/-- C3 (amended): for `1 ≤ b ≤ 30` the `Scaled` decoder reads `b` bits
as unsigned `raw` and returns `low + (high - low) * (raw / (2^b - 1))`
(the concrete instance `b = 8`, `low = -1`, `high = 1`, raw 255 gives
`1.0`); outside that range the `wrapping_shl` denominator diverges from
`2^b - 1` (`b = 31` flips its sign, `b = 32` makes it zero, and
`b > 32` fails the 32-bit read), so the claimed formula does not hold
for every representable `b`. -/
theorem scaled_float_formula (b : Nat) (low high : ℚ) (raw : Nat)
    (rest : List Bool) (hb1 : 1 ≤ b) (hb2 : b ≤ 30) (hraw : raw < 2 ^ b) :
    readFloat (.scaled b high low) (bitsLE b raw ++ rest) =
      some (low + (high - low) * ((raw : ℚ) / ((2 : ℚ) ^ b - 1)), rest) := by
  have hd : scaledDenom b = (2 : ℚ) ^ b - 1 := by
    unfold scaledDenom toI32
    have hb32 : b % 32 = b := Nat.mod_eq_of_lt (by omega)
    rw [hb32]
    have h1 : (1 <<< b) = 2 ^ b := by simp [Nat.shiftLeft_eq]
    have hlt32 : (2 : Nat) ^ b < 2 ^ 32 := Nat.pow_lt_pow_right (by norm_num) (by omega)
    have hlt31 : (2 : Nat) ^ b < 2 ^ 31 := by
      calc (2 : Nat) ^ b ≤ 2 ^ 30 := Nat.pow_le_pow_right (by norm_num) hb2
      _ < 2 ^ 31 := by norm_num
    rw [h1]
    simp only [Nat.mod_eq_of_lt hlt32]
    rw [if_pos hlt31]
    push_cast
    ring
  simp only [readFloat]
  rw [if_pos (by omega : b ≤ 32), readBits_bitsLE b raw hraw]
  simp [hd]

/-- C3 witness: the spec's concrete scenario — `bit_count = 8`,
`low = -1`, `high = 1`, bits `11111111` — decodes to `1.0`. -/
theorem scaled_float_formula_witness :
    readFloat (.scaled 8 1 (-1)) (bitsLE 8 255 ++ []) = some ((1 : ℚ), []) := by
  have h := scaled_float_formula 8 (-1) 1 255 [] (by norm_num) (by norm_num)
    (by norm_num)
  rw [h]
  norm_num

/-! ## Values and lenient equality -/

/-- `SendPropValue`; floats as exact rationals, strings as byte lists.
`Vector`/`VectorXY` (from `vector.rs`, not part of the provided source)
are inlined as their coordinate fields. -/
inductive SendPropValue where
  | vector (x y z : ℚ)
  | vectorXY (x y : ℚ)
  | integer (v : Int)
  | float (v : ℚ)
  | str (s : List Nat)
  | array (xs : List SendPropValue)

/-- Lenient comparison of a `Float` value against an arbitrary value:
the inlined float-on-the-left cases of the equality below (used by the
`Vector`/`VectorXY` versus `Array` arms, which recurse with
`SendPropValue::Float(…) == element`).  A `Float` compares with
tolerance against a `Float`, by exact `f64` cast against an `Integer`
(the cast of an `i64` is exact in this rational model), and is unequal
to every other variant. -/
def eqFloatVal (q : ℚ) : SendPropValue → Bool
  | .float b => decide (q - b < 1 / 1000)
  | .integer n => decide (q = (n : ℚ))
  | _ => false

mutual

/-- `impl PartialEq for SendPropValue` (lenient equality), arm by arm in
source order; the `Vector`/`VectorXY` versus `Array` arms require the
exact length (3 resp. 2) and otherwise fall through to `false`, matching
the Rust match guards.  `Vector == Vector` and `VectorXY == VectorXY`
are modelled from the spec (§4.5 "same variant, same contents,
elementwise"): `vector.rs` is outside the provided source; its derived
`PartialEq` is exact componentwise equality. -/
def lenientEq : SendPropValue → SendPropValue → Bool
  | .vector x1 y1 z1, .vector x2 y2 z2 =>
    decide (x1 = x2) && decide (y1 = y2) && decide (z1 = z2)
  | .vectorXY x1 y1, .vectorXY x2 y2 => decide (x1 = x2) && decide (y1 = y2)
  | .integer a, .integer b => decide (a = b)
  | .float a, .float b => decide (a - b < 1 / 1000)
  | .str a, .str b => decide (a = b)
  | .array a, .array b => lenientEqList a b
  | .integer a, .float b => decide ((a : ℚ) = b)
  | .float a, .integer b => decide (a = (b : ℚ))
  | .vector x1 y1 z1, .vectorXY x2 y2 =>
    decide (x1 = x2) && decide (y1 = y2) && decide (z1 = 0)
  | .vectorXY x1 y1, .vector x2 y2 z2 =>
    decide (x1 = x2) && decide (y1 = y2) && decide (z2 = 0)
  | .vector x y z, .array [e0, e1, e2] =>
    eqFloatVal x e0 && eqFloatVal y e1 && eqFloatVal z e2
  | .array [e0, e1, e2], .vector x y z =>
    eqFloatVal x e0 && eqFloatVal y e1 && eqFloatVal z e2
  | .vectorXY x y, .array [e0, e1] => eqFloatVal x e0 && eqFloatVal y e1
  | .array [e0, e1], .vectorXY x y => eqFloatVal x e0 && eqFloatVal y e1
  | _, _ => false

/-- `Vec<SendPropValue>` equality: equal length and elementwise. -/
def lenientEqList : List SendPropValue → List SendPropValue → Bool
  | [], [] => true
  | a :: as, b :: bs => lenientEq a b && lenientEqList as bs
  | _, _ => false

end

/-- Sanity: the inlined float comparison agrees with the full equality
applied with a `Float` on the left. -/
theorem lenientEq_float_left (q : ℚ) (e : SendPropValue) :
    lenientEq (.float q) e = eqFloatVal q e := by
  cases e <;> simp [lenientEq, eqFloatVal]

/-- C4 counterexample: the float tolerance `a - b < 0.001` is
directional, so the lenient equality is not symmetric:
`Float(0) == Float(1)` holds but `Float(1) == Float(0)` does not. -/
theorem lenientEq_not_symmetric :
    lenientEq (.float 0) (.float 1) = true ∧
    lenientEq (.float 1) (.float 0) = false := by
  constructor <;> simp [lenientEq] <;> norm_num

theorem lenientEqList_refl (xs : List SendPropValue)
    (h : ∀ x ∈ xs, lenientEq x x = true) : lenientEqList xs xs = true := by
  induction xs with
  | nil => simp [lenientEqList]
  | cons a as ih =>
    simp only [lenientEqList, Bool.and_eq_true]
    exact ⟨h a (by simp), ih fun x hx => h x (by simp [hx])⟩

theorem lenientEq_refl_aux : ∀ n, ∀ a : SendPropValue, sizeOf a ≤ n →
    lenientEq a a = true := by
  intro n
  induction n with
  | zero =>
    intro a h
    cases a <;> simp_arith at h
  | succ n ih =>
    intro a h
    cases a with
    | vector x y z => simp [lenientEq]
    | vectorXY x y => simp [lenientEq]
    | integer v => simp [lenientEq]
    | float v =>
      simp only [lenientEq, decide_eq_true_eq]
      norm_num
    | str s => simp [lenientEq]
    | array xs =>
      have hall : ∀ x ∈ xs, lenientEq x x = true := by
        intro x hmem
        have hlt := List.sizeOf_lt_of_mem hmem
        have hs : sizeOf (SendPropValue.array xs) = 1 + sizeOf xs := by
          simp
        exact ih x (by omega)
      have hl := lenientEqList_refl xs hall
      have hunfold : lenientEq (SendPropValue.array xs)
          (SendPropValue.array xs) = lenientEqList xs xs := by
        rw [lenientEq]
      rw [hunfold]
      exact hl

/-- C4 (amended): the lenient equality on `SendPropValue` is reflexive,
but it is not symmetric — the one-sided float tolerance `a - b < 0.001`
makes `Float(0) == Float(1)` hold while `Float(1) == Float(0)` fails.
(Symmetry as claimed by the spec does not hold on the code.) -/
theorem lenientEq_refl (a : SendPropValue) : lenientEq a a = true :=
  lenientEq_refl_aux (sizeOf a) a le_rfl

/-! ## Value decoder (`SendPropValue::parse`) -/

/-- `SendPropParseDefinition` (refined decode recipe). -/
inductive SendPropParseDefinition where
  | normalVarInt (changes_often unsigned : Bool)
  | unsignedInt (changes_often : Bool) (bit_count : Nat)
  | int (changes_often : Bool) (bit_count : Nat)
  | float (changes_often : Bool) (definition : FloatDefinition)
  | str (changes_often : Bool)
  | vector (changes_often : Bool) (definition : FloatDefinition)
  | vectorXY (changes_often : Bool) (definition : FloatDefinition)
  | array (changes_often : Bool) (inner_definition : SendPropParseDefinition)
      (count_bit_count : Nat)

/-- `stream.read_sized::<u32>(b)` / `read_int::<u32>(b)`: at most 32
bits fit a `u32`; larger widths are a reader error. -/
def readSizedU32 (b : Nat) (s : List Bool) : Option (Nat × List Bool) :=
  if b ≤ 32 then readBits b s else none

/-- Signed `b`-bit read (`read_int::<i32>`): sign-extend from bit
`b - 1`. -/
def readIntSigned (b : Nat) (s : List Bool) : Option (Int × List Bool) :=
  if b ≤ 32 then
    (readBits b s).map fun vs =>
      (if vs.1 < 2 ^ (b - 1) then (vs.1 : Int) else (vs.1 : Int) - 2 ^ b, vs.2)
  else none

/-- Read `n` bytes (`read_sized::<String>(n)`; the text is kept as raw
bytes). -/
def readNBytes : Nat → List Bool → Option (List Nat × List Bool)
  | 0, s => some ([], s)
  | n + 1, s =>
    (readBits 8 s).bind fun b =>
      (readNBytes n b.2).map fun bs => (b.1 :: bs.1, bs.2)

mutual

/-- `SendPropValue::parse`, variant by variant in source order. -/
def parse : SendPropParseDefinition → List Bool → Option (SendPropValue × List Bool)
  | .normalVarInt _ unsigned, s =>
    (readVarInt (!unsigned) s).map fun vs => (.integer vs.1, vs.2)
  | .unsignedInt _ b, s =>
    (readSizedU32 b s).map fun vs => (.integer vs.1, vs.2)
  | .int _ b, s =>
    (readIntSigned b s).map fun vs => (.integer vs.1, vs.2)
  | .float _ d, s => (readFloat d s).map fun vs => (.float vs.1, vs.2)
  | .str _, s =>
    (readBits 9 s).bind fun ls =>
      (readNBytes ls.1 ls.2).map fun bs => (.str bs.1, bs.2)
  | .vector _ d, s =>
    (readFloat d s).bind fun x =>
      (readFloat d x.2).bind fun y =>
        (readFloat d y.2).map fun z => (.vector x.1 y.1 z.1, z.2)
  | .vectorXY _ d, s =>
    (readFloat d s).bind fun x =>
      (readFloat d x.2).map fun y => (.vectorXY x.1 y.1, y.2)
  | .array _ inner c, s =>
    (readBits c s).bind fun cnt =>
      (parseList inner cnt.1 cnt.2).map fun vs => (.array vs.1, vs.2)
termination_by d _ => (sizeOf d, 0)

/-- The `for _ in 0..count` loop of the `Array` arm: decode `count`
inner values in stream order.  (The `Vec::with_capacity(min(count,
128))` preallocation has no observable counterpart in the model.) -/
def parseList : SendPropParseDefinition → Nat → List Bool →
    Option (List SendPropValue × List Bool)
  | _, 0, s => some ([], s)
  | d, n + 1, s =>
    (parse d s).bind fun v =>
      (parseList d n v.2).map fun vs => (v.1 :: vs.1, vs.2)
termination_by d n _ => (sizeOf d, n + 1)

end

theorem parseList_length (d : SendPropParseDefinition) :
    ∀ n s vs s', parseList d n s = some (vs, s') → vs.length = n := by
  intro n
  induction n with
  | zero =>
    intro s vs s' h
    simp only [parseList, Option.some.injEq, Prod.mk.injEq] at h
    simp [← h.1]
  | succ n ih =>
    intro s vs s' h
    simp only [parseList] at h
    cases hp : parse d s with
    | none => rw [hp] at h; simp at h
    | some v =>
      rw [hp] at h
      simp only [Option.some_bind] at h
      cases hl : parseList d n v.2 with
      | none => rw [hl] at h; simp at h
      | some vs2 =>
        rw [hl] at h
        simp only [Option.map_some', Option.some.injEq, Prod.mk.injEq] at h
        have := ih v.2 vs2.1 vs2.2 (by rw [hl])
        simp [← h.1, this]

/-- C7: a successful `Array` decode reads a `count_bit_count`-bit
unsigned `count` and then exactly `count` inner values; the resulting
array's length is exactly `count` (the `min(count, 128)` clamp only
sizes the preallocation, which has no observable effect on the decoded
value). -/
theorem parse_array_length (ch : Bool) (inner : SendPropParseDefinition)
    (c : Nat) (s : List Bool) (v : SendPropValue) (s' : List Bool)
    (h : parse (.array ch inner c) s = some (v, s')) :
    ∃ count s1 vs, readBits c s = some (count, s1) ∧ v = .array vs ∧
      vs.length = count ∧ parseList inner count s1 = some (vs, s') := by
  simp only [parse] at h
  cases hc : readBits c s with
  | none => rw [hc] at h; simp at h
  | some cnt =>
    rw [hc] at h
    simp only [Option.some_bind] at h
    cases hl : parseList inner cnt.1 cnt.2 with
    | none => rw [hl] at h; simp at h
    | some vs =>
      rw [hl] at h
      simp only [Option.map_some', Option.some.injEq, Prod.mk.injEq] at h
      refine ⟨cnt.1, cnt.2, vs.1, by simp [hc], h.1.symm,
        parseList_length inner cnt.1 cnt.2 vs.1 vs.2 (by simp [hl]), ?_⟩
      simp [hl, ← h.2]

/-- C7 witness: the spec's concrete scenario — `count_bit_count = 2`,
inner `UnsignedInt{8}`, bits `11, 00000001, 00000010, 00000011` —
decodes to an array of length 3 holding `Integer 1, 2, 3`. -/
theorem parse_array_length_witness :
    ∃ count s1 vs,
      readBits 2 (bitsLE 2 3 ++ (bitsLE 8 1 ++ (bitsLE 8 2 ++ bitsLE 8 3))) =
        some (count, s1) ∧
      SendPropValue.array
          [.integer 1, .integer 2, .integer 3] = .array vs ∧
      vs.length = count ∧
      parseList (.unsignedInt false 8) count s1 = some (vs, []) := by
  have e1 := readBits_bitsLE 2 3 (by norm_num)
    (bitsLE 8 1 ++ (bitsLE 8 2 ++ bitsLE 8 3))
  have e2 := readBits_bitsLE 8 1 (by norm_num) (bitsLE 8 2 ++ bitsLE 8 3)
  have e3 := readBits_bitsLE 8 2 (by norm_num) (bitsLE 8 3)
  have e4 := readBits_bitsLE 8 3 (by norm_num) ([] : List Bool)
  rw [List.append_nil] at e4
  exact parse_array_length false (.unsignedInt false 8) 2
    (bitsLE 2 3 ++ (bitsLE 8 1 ++ (bitsLE 8 2 ++ bitsLE 8 3)))
    (.array [.integer 1, .integer 2, .integer 3]) []
    (by simp [parse, parseList, readSizedU32, e1, e2, e3, e4])

/-- C2: `read_var_int` consumes at most five bytes (OR-ing
`(byte & 0x7F) << i` for `i = 0, 7, 14, 21, 28` into a 32-bit
accumulator and stopping at the first byte with a clear high bit); the
signed result is the zig-zag decode
`(result >>> 1) XOR -(result & 1)` — arithmetic shift, i.e. floor
halving, complemented when odd — of the unsigned result; and on bytes
`0x96 0x01` with `signed = true` it returns 75, so parsing a
`NormalVarInt` definition there yields `Integer 75`. -/
theorem read_var_int_spec :
    (∀ (sg : Bool) (s : List Bool) (v : Int) (s' : List Bool),
      readVarInt sg s = some (v, s') →
        ∃ k, k ≤ 5 ∧ s' = List.drop (8 * k) s) ∧
    (∀ (s : List Bool) (u : Int) (s' : List Bool),
      readVarInt false s = some (u, s') →
        readVarInt true s = some (zigzagDecode u, s')) ∧
    readVarInt true (bitsLE 8 0x96 ++ bitsLE 8 0x01) = some (75, []) ∧
    parse (.normalVarInt false false) (bitsLE 8 0x96 ++ bitsLE 8 0x01) =
      some (.integer 75, []) := by
  have hconsume : ∀ (sg : Bool) (s : List Bool) (v : Int) (s' : List Bool),
      readVarInt sg s = some (v, s') → ∃ k, k ≤ 5 ∧ s' = List.drop (8 * k) s := by
    intro sg s v s' h
    simp only [readVarInt] at h
    cases hl : readVarIntLoop [0, 7, 14, 21, 28] 0 s with
    | none => rw [hl] at h; simp at h
    | some rs =>
      rw [hl] at h
      simp only [Option.map_some', Option.some.injEq, Prod.mk.injEq] at h
      obtain ⟨k, hk, hs⟩ := readVarIntLoop_drop _ _ _ _ _ hl
      exact ⟨k, by simpa using hk, h.2 ▸ hs⟩
  have hzig : ∀ (s : List Bool) (u : Int) (s' : List Bool),
      readVarInt false s = some (u, s') →
        readVarInt true s = some (zigzagDecode u, s') := by
    intro s u s' h
    simp only [readVarInt] at h ⊢
    cases hl : readVarIntLoop [0, 7, 14, 21, 28] 0 s with
    | none => rw [hl] at h; simp at h
    | some rs =>
      rw [hl] at h
      simp only [Option.map_some', Option.some.injEq, Prod.mk.injEq,
        Bool.false_eq_true, ite_false, ite_true] at h ⊢
      have hr := readVarIntLoop_lt _ _ _ (by norm_num) _ _ hl
      exact ⟨by rw [← h.1, zigzag_spec rs.1 hr], h.2⟩
  have hconc : readVarInt true (bitsLE 8 0x96 ++ bitsLE 8 0x01) =
      some (75, []) := by decide
  refine ⟨hconsume, hzig, hconc, ?_⟩
  simp only [parse, Bool.not_false, hconc, Option.map_some']

/-- C2 witness: the theorem's byte-consumption bound applied to the
concrete signed varint `0x96 0x01`, whose decode the theorem itself
supplies. -/
theorem read_var_int_spec_witness :
    ∃ k, k ≤ 5 ∧ ([] : List Bool) =
      List.drop (8 * k) (bitsLE 8 0x96 ++ bitsLE 8 0x01) :=
  read_var_int_spec.1 true (bitsLE 8 0x96 ++ bitsLE 8 0x01) 75 []
    read_var_int_spec.2.2.1

end SendProp
